import Mathlib

/-!
Verification model of the `librecordio` record serialization framework
(`src/c++/librecordio/recordio.hh`).  The header declares the public
contracts (`InStream`/`OutStream`, `Record`, `RecFormat`,
`RecordReader`/`RecordWriter`); the archive implementations behind them are
not part of the sources, so the encode/decode behaviour is modelled from the
specification: byte streams become lists of bytes (`Nat` below 256), the
binary archive becomes zigzag/varint encoders and decoders, the XML archive
is modelled at token level, and the CSV archive is modelled at character
level with the quote-and-escape discipline the specification describes.
All fallible operations return `Except Err`.
-/

namespace RecordIO

/-- Error taxonomy of the framework: transport failure or premature end of
stream, malformed input for the active format, value not representable in
the target format, and a record failing validation. -/
inductive Err
  | ioError
  | formatError
  | encodingError
  | validationError
deriving DecidableEq, Repr

/-- The closed format enumeration from `recordio.hh` line 53:
`enum RecFormat { kBinary, kXML, kCSV }`. -/

inductive RecFormat
  | kBinary
  | kXML
  | kCSV
deriving DecidableEq, Repr

/-- Zigzag transform sending small-magnitude integers to small naturals:
`0, -1, 1, -2, 2, ...` maps to `0, 1, 2, 3, 4, ...`. -/

def zigzag (i : Int) : Nat :=
  if 0 ≤ i then 2 * i.natAbs else 2 * i.natAbs - 1

/-- Inverse of the zigzag transform. -/

def unzigzag (n : Nat) : Int :=
  if n % 2 = 0 then (n / 2 : Nat) else -((n / 2 : Nat) : Int) - 1

def varintF : Nat → Nat → List Nat
  | 0, n => [n % 128]
  | fuel + 1, n =>
    if n < 128 then [n] else (n % 128 + 128) :: varintF fuel (n / 128)

/-- Variable-length base-128 encoding with a continuation bit: each byte
carries seven payload bits, least significant group first; a byte below
128 terminates the encoding. -/

def varint (n : Nat) : List Nat := varintF n n

def varintDec : List Nat → Except Err (Nat × List Nat)
  | [] => .error .ioError
  | b :: rest =>
    if b < 128 then .ok (b, rest)
    else
      match varintDec rest with
      | .ok (n, r) => .ok ((b - 128) + 128 * n, r)
      | .error e => .error e

inductive PrimType
  | tBool
  | tByte
  | tInt
  | tLong
  | tFloat
  | tDouble
  | tString
  | tBuffer
deriving DecidableEq, Repr

/-- A primitive value.  Machine integers are `Int` with an explicit range
side condition; floats are carried as their IEEE-754 bit patterns (a `Nat`
below `2^32` or `2^64`), since the archives move them as opaque fixed-width
payloads; strings and buffers are byte lists. -/

inductive PrimValue
  | vBool (b : Bool)
  | vByte (i : Int)
  | vInt (i : Int)
  | vLong (i : Int)
  | vFloat (bits : Nat)
  | vDouble (bits : Nat)
  | vString (s : List Nat)
  | vBuffer (bs : List Nat)
deriving DecidableEq, Repr

/-- The kind of a primitive value. -/

def PrimValue.ptype : PrimValue → PrimType
  | .vBool _ => .tBool
  | .vByte _ => .tByte
  | .vInt _ => .tInt
  | .vLong _ => .tLong
  | .vFloat _ => .tFloat
  | .vDouble _ => .tDouble
  | .vString _ => .tString
  | .vBuffer _ => .tBuffer

/-- Continuation byte of a UTF-8 sequence: `10xxxxxx`. -/

def contB (b : Nat) : Bool := 128 ≤ b && b < 192

/-- Structural UTF-8 validity of a byte list: ASCII bytes stand alone,
lead bytes `C2..DF`, `E0..EF`, `F0..F4` are followed by one, two or three
continuation bytes respectively. -/

def validUtf8 : List Nat → Bool
  | [] => true
  | b :: rest =>
    if b < 128 then validUtf8 rest
    else if 194 ≤ b && b ≤ 223 then
      match rest with
      | b2 :: r => contB b2 && validUtf8 r
      | [] => false
    else if 224 ≤ b && b ≤ 239 then
      match rest with
      | b2 :: b3 :: r => contB b2 && contB b3 && validUtf8 r
      | _ => false
    else if 240 ≤ b && b ≤ 244 then
      match rest with
      | b2 :: b3 :: b4 :: r => contB b2 && contB b3 && contB b4 && validUtf8 r
      | _ => false
    else false

/-- Representable domain of each primitive kind: boolean always; integers
within their two-complement width; float bit patterns within their width;
strings are valid UTF-8 byte lists; buffers are arbitrary byte lists. -/

def PrimValue.wfb : PrimValue → Bool
  | .vBool _ => true
  | .vByte i => decide (-128 ≤ i ∧ i < 128)
  | .vInt i => decide (-(2 ^ 31) ≤ i ∧ i < 2 ^ 31)
  | .vLong i => decide (-(2 ^ 63) ≤ i ∧ i < 2 ^ 63)
  | .vFloat n => decide (n < 2 ^ 32)
  | .vDouble n => decide (n < 2 ^ 64)
  | .vString s => s.all (fun b => decide (b < 256)) && validUtf8 s
  | .vBuffer s => s.all (fun b => decide (b < 256))

/-- A primitive value lies in the representable domain of its kind. -/

def PrimValue.wf (v : PrimValue) : Prop := v.wfb = true

instance (v : PrimValue) : Decidable v.wf :=
  inferInstanceAs (Decidable (v.wfb = true))

/-- Two-complement single byte of an 8-bit integer. -/

def byteEnc (i : Int) : Nat := (i % 256).toNat

/-- Decode a two-complement byte. -/

def byteDec (b : Nat) : Int := if b < 128 then (b : Int) else (b : Int) - 256

def bytesLE : Nat → Nat → List Nat
  | 0, _ => []
  | k + 1, n => n % 256 :: bytesLE k (n / 256)

/-- Read a fixed number of little-endian bytes into a natural number. -/

def readLE : Nat → List Nat → Except Err (Nat × List Nat)
  | 0, l => .ok (0, l)
  | _ + 1, [] => .error .ioError
  | k + 1, b :: rest =>
    match readLE k rest with
    | .ok (n, r) => .ok (b + 256 * n, r)
    | .error e => .error e

def takeN : Nat → List Nat → Except Err (List Nat × List Nat)
  | 0, l => .ok ([], l)
  | _ + 1, [] => .error .ioError
  | k + 1, b :: rest =>
    match takeN k rest with
    | .ok (bs, r) => .ok (b :: bs, r)
    | .error e => .error e

def encLong (i : Int) : List Nat := varint (zigzag i)

/-- Binary archive write of one primitive value (`Modelled from the spec:`
the binary archive implementation is absent from the sources; the spec
prescribes zigzag/varint integers, varint-length-prefixed strings and
buffers, and fixed-width payloads moved as-is). -/

def bwritePrim : PrimValue → List Nat
  | .vBool b => [if b then 1 else 0]
  | .vByte i => [byteEnc i]
  | .vInt i => encLong i
  | .vLong i => encLong i
  | .vFloat bits => bytesLE 4 bits
  | .vDouble bits => bytesLE 8 bits
  | .vString s => varint s.length ++ s
  | .vBuffer s => varint s.length ++ s

/-- Binary archive read of one primitive value.  Stream exhaustion yields
`ioError`; a boolean byte other than 0 or 1 is malformed input and yields
`formatError`. -/

def breadPrim : PrimType → List Nat → Except Err (PrimValue × List Nat)
  | .tBool, [] => .error .ioError
  | .tBool, b :: rest =>
    if b = 0 then .ok (.vBool false, rest)
    else if b = 1 then .ok (.vBool true, rest)
    else .error .formatError
  | .tByte, [] => .error .ioError
  | .tByte, b :: rest => .ok (.vByte (byteDec b), rest)
  | .tInt, l =>
    match varintDec l with
    | .ok (n, r) => .ok (.vInt (unzigzag n), r)
    | .error e => .error e
  | .tLong, l =>
    match varintDec l with
    | .ok (n, r) => .ok (.vLong (unzigzag n), r)
    | .error e => .error e
  | .tFloat, l =>
    match readLE 4 l with
    | .ok (n, r) => .ok (.vFloat n, r)
    | .error e => .error e
  | .tDouble, l =>
    match readLE 8 l with
    | .ok (n, r) => .ok (.vDouble n, r)
    | .error e => .error e
  | .tString, l =>
    match varintDec l with
    | .ok (len, r) =>
      match takeN len r with
      | .ok (s, r2) => .ok (.vString s, r2)
      | .error e => .error e
    | .error e => .error e
  | .tBuffer, l =>
    match varintDec l with
    | .ok (len, r) =>
      match takeN len r with
      | .ok (s, r2) => .ok (.vBuffer s, r2)
      | .error e => .error e
    | .error e => .error e

/-- Binary round trip, strong form: reading back a freshly written value
consumes exactly the written bytes and returns the value, leaving any
following bytes untouched. -/

def natDecRev (n : Nat) : List Nat :=
  if h : n < 10 then [n + 48]
  else (n % 10 + 48) :: natDecRev (n / 10)
termination_by n
decreasing_by exact Nat.div_lt_self (by omega) (by norm_num)

/-- ASCII decimal text of a natural number, most significant digit first. -/

def natDec (n : Nat) : List Nat := (natDecRev n).reverse

/-- Value of a least-significant-first ASCII digit list. -/

def decValRev : List Nat → Nat
  | [] => 0
  | d :: r => (d - 48) + 10 * decValRev r

/-- ASCII decimal digit test. -/

def isDigit (b : Nat) : Bool := 48 ≤ b && b ≤ 57

def parseNatText : List Nat → Except Err Nat
  | [] => .error .formatError
  | b :: r =>
    if (b :: r).all isDigit then .ok (decValRev (b :: r).reverse)
    else .error .formatError

def intDec (i : Int) : List Nat :=
  if i < 0 then 45 :: natDec i.natAbs else natDec i.natAbs

/-- Parse a whole ASCII decimal text into an integer. -/

def parseIntText : List Nat → Except Err Int
  | [] => .error .formatError
  | b :: r =>
    if b = 45 then
      match parseNatText r with
      | .ok n => .ok (-(n : Int))
      | .error e => .error e
    else
      match parseNatText (b :: r) with
      | .ok n => .ok ((n : Int))
      | .error e => .error e

def hexDigit (n : Nat) : Nat := if n < 10 then n + 48 else n + 87

/-- Value of an ASCII hex digit byte, `formatError` otherwise. -/

def hexVal (b : Nat) : Except Err Nat :=
  if 48 ≤ b ∧ b ≤ 57 then .ok (b - 48)
  else if 97 ≤ b ∧ b ≤ 102 then .ok (b - 87)
  else .error .formatError

def bufHexEnc : List Nat → List Nat
  | [] => []
  | b :: bs => hexDigit (b / 16) :: hexDigit (b % 16) :: bufHexEnc bs

/-- Parse a whole hex text back into a byte buffer. -/

def parseHexText : List Nat → Except Err (List Nat)
  | [] => .ok []
  | [_] => .error .formatError
  | h :: l :: r =>
    match hexVal h with
    | .error e => .error e
    | .ok hv =>
      match hexVal l with
      | .error e => .error e
      | .ok lv =>
        match parseHexText r with
        | .ok bs => .ok ((16 * hv + lv) :: bs)
        | .error e => .error e

def trueText : List Nat := [116, 114, 117, 101]

/-- ASCII bytes of the word false. -/

def falseText : List Nat := [102, 97, 108, 115, 101]

/-- Boolean text form. -/

def boolText (b : Bool) : List Nat := if b then trueText else falseText

/-- Parse a whole boolean text. -/

def parseBoolText (l : List Nat) : Except Err Bool :=
  if l = trueText then .ok true
  else if l = falseText then .ok false
  else .error .formatError

/-- Text content of a primitive value, as the XML and CSV archive models
render it: decimal for integers, decimal of the bit pattern for floats,
the raw bytes for strings, lower-case hex for buffers. -/

def valueText : PrimValue → List Nat
  | .vBool b => boolText b
  | .vByte i => intDec i
  | .vInt i => intDec i
  | .vLong i => intDec i
  | .vFloat bits => natDec bits
  | .vDouble bits => natDec bits
  | .vString s => s
  | .vBuffer bs => bufHexEnc bs

/-- Parse a whole text content as a value of the expected primitive kind. -/

def parseText : PrimType → List Nat → Except Err PrimValue
  | .tBool, l =>
    match parseBoolText l with
    | .ok b => .ok (.vBool b)
    | .error e => .error e
  | .tByte, l =>
    match parseIntText l with
    | .ok i => .ok (.vByte i)
    | .error e => .error e
  | .tInt, l =>
    match parseIntText l with
    | .ok i => .ok (.vInt i)
    | .error e => .error e
  | .tLong, l =>
    match parseIntText l with
    | .ok i => .ok (.vLong i)
    | .error e => .error e
  | .tFloat, l =>
    match parseNatText l with
    | .ok n => .ok (.vFloat n)
    | .error e => .error e
  | .tDouble, l =>
    match parseNatText l with
    | .ok n => .ok (.vDouble n)
    | .error e => .error e
  | .tString, l => .ok (.vString l)
  | .tBuffer, l =>
    match parseHexText l with
    | .ok bs => .ok (.vBuffer bs)
    | .error e => .error e

inductive XmlInd
  | prim (t : PrimType)
  | recName (n : List Nat)
  | vect
  | mapp
deriving DecidableEq, Repr

/-- Token-level model of the XML wire (`Modelled from the spec:` the XML
archive implementation is absent from the sources; the spec fixes the
element tree — element named from the tag, typed text content, closing
element — but not the lexical layer, so the model works on
open/text/close tokens). -/

inductive XmlToken
  | elemOpen (tag : List Nat) (ind : XmlInd)
  | text (content : List Nat)
  | elemClose (tag : List Nat)
deriving DecidableEq, Repr

/-- XML archive write of one primitive value: open an element named from
the tag carrying the type indicator, the value as text content, close. -/

def xwritePrim (tag : List Nat) (v : PrimValue) : List XmlToken :=
  [.elemOpen tag (.prim v.ptype), .text (valueText v), .elemClose tag]

/-- XML archive read of one primitive value: expects the exact element
shape with the expected tag and type indicator; an unexpected tag or
indicator is out-of-sequence input, hence `formatError`; an exhausted
token stream is `ioError`. -/

def xreadPrim (tag : List Nat) (ty : PrimType) :
    List XmlToken → Except Err (PrimValue × List XmlToken)
  | .elemOpen t ind :: .text c :: .elemClose t2 :: rest =>
    if t = tag ∧ ind = .prim ty ∧ t2 = tag then
      match parseText ty c with
      | .ok v => .ok (v, rest)
      | .error e => .error e
    else .error .formatError
  | [] => .error .ioError
  | _ => .error .formatError

/-- XML round trip, strong form. -/

def csvNeedsQuote (s : List Nat) : Bool :=
  s.any (fun c => c = 44 || c = 34 || c = 10)

/-- CSV escaping inside a quoted field: double every double-quote byte. -/

def csvEscape : List Nat → List Nat
  | [] => []
  | c :: cs => if c = 34 then 34 :: 34 :: csvEscape cs else c :: csvEscape cs

/-- CSV text of one field (`Modelled from the spec:` the CSV archive
implementation is absent from the sources; the spec prescribes
comma-separated fields with quote-and-escape on comma/quote/newline). -/

def cwritePrim (v : PrimValue) : List Nat :=
  match v with
  | .vString s => if csvNeedsQuote s then 34 :: (csvEscape s ++ [34]) else s
  | _ => valueText v

/-- Read the remainder of a quoted CSV field, after the opening quote:
doubled quotes unescape, a lone closing quote ends the field and must be
followed by a separator or end of stream, and an unterminated quote is
stream exhaustion. -/

def csvQuoted : List Nat → Except Err (List Nat × List Nat)
  | [] => .error .ioError
  | c :: rest =>
    if c = 34 then
      match rest with
      | [] => .ok ([], [])
      | c2 :: rest2 =>
        if c2 = 34 then
          match csvQuoted rest2 with
          | .ok (cs, t) => .ok (34 :: cs, t)
          | .error e => .error e
        else if c2 = 44 then .ok ([], c2 :: rest2)
        else .error .formatError
    else
      match csvQuoted rest with
      | .ok (cs, t) => .ok (c :: cs, t)
      | .error e => .error e

/-- Read an unquoted CSV field: everything up to the next comma or the end
of the stream. -/

def csvUnquoted : List Nat → (List Nat × List Nat)
  | [] => ([], [])
  | c :: rest =>
    if c = 44 then ([], c :: rest)
    else
      let (cs, t) := csvUnquoted rest
      (c :: cs, t)

/-- Read one CSV field off the stream, quote-aware. -/

def csvTakeField : List Nat → Except Err (List Nat × List Nat)
  | [] => .ok ([], [])
  | c :: rest =>
    if c = 34 then csvQuoted rest
    else .ok (csvUnquoted (c :: rest))

/-- CSV archive read of one primitive value: take one field, then parse
its content as the expected kind. -/

def creadPrim (ty : PrimType) (l : List Nat) :
    Except Err (PrimValue × List Nat) :=
  match csvTakeField l with
  | .ok (content, rest) =>
    match parseText ty content with
    | .ok v => .ok (v, rest)
    | .error e => .error e
  | .error e => .error e

def Wire : RecFormat → Type
  | .kBinary => List Nat
  | .kXML => List XmlToken
  | .kCSV => List Nat

/-- The empty wire of each format. -/

def emptyWire : (f : RecFormat) → Wire f
  | .kBinary => ([] : List Nat)
  | .kXML => ([] : List XmlToken)
  | .kCSV => ([] : List Nat)

/-- Uniform tagged primitive write across the three archive variants. -/

def writePrim : (f : RecFormat) → List Nat → PrimValue → Wire f
  | .kBinary, _, v => bwritePrim v
  | .kXML, tag, v => xwritePrim tag v
  | .kCSV, _, v => cwritePrim v

/-- Uniform tagged primitive read across the three archive variants. -/

def readPrim : (f : RecFormat) → List Nat → PrimType →
    Wire f → Except Err (PrimValue × Wire f)
  | .kBinary, _, ty => fun w => breadPrim ty w
  | .kXML, tag, ty => fun w => xreadPrim tag ty w
  | .kCSV, _, ty => fun w => creadPrim ty w

/-- Field types of a concrete record layout: a primitive kind, a vector,
or a map (`Modelled from the spec:` concrete Record types and their
signatures come from the external schema/code-generation process; the spec
fixes only that a signature is a canonical digest of the field name+type
layout). -/

inductive FieldType
  | fPrim (p : PrimType)
  | fVector (elem : FieldType)
  | fMap (key : FieldType) (val : FieldType)
deriving DecidableEq, Repr

/-- A concrete record type: a namespace-qualified name and an ordered,
named field layout. -/

structure TypeLayout where
  name : List Nat
  fields : List (List Nat × FieldType)
deriving DecidableEq, Repr

/-- Digest code of each primitive kind. -/

def primCode : PrimType → Nat
  | .tBool => 0
  | .tByte => 1
  | .tInt => 2
  | .tLong => 3
  | .tFloat => 4
  | .tDouble => 5
  | .tString => 6
  | .tBuffer => 7

def encName (n : List Nat) : List Nat := varint n.length ++ n

/-- Digest of a field type. -/

def encFieldType : FieldType → List Nat
  | .fPrim p => [primCode p]
  | .fVector t => 8 :: encFieldType t
  | .fMap k v => 9 :: (encFieldType k ++ encFieldType v)

/-- Digest of a named field list. -/

def encFields : List (List Nat × FieldType) → List Nat
  | [] => []
  | f :: fs => encName f.1 ++ encFieldType f.2 ++ encFields fs

/-- Canonical digest of a record type: its name, its field count, then
each field name and field type in declared order. -/

def signature (t : TypeLayout) : List Nat :=
  encName t.name ++ varint t.fields.length ++ encFields t.fields

structure RecordInstance where
  layout : TypeLayout
  values : List PrimValue
deriving DecidableEq, Repr

/-- The `type()` identity accessor: the layout's qualified name, constant
for a given concrete type. -/

def RecordInstance.typeName (r : RecordInstance) : List Nat := r.layout.name

/-- The `signature()` identity accessor: the canonical digest of the
layout, constant for a given concrete type. -/

def RecordInstance.sigBytes (r : RecordInstance) : List Nat := signature r.layout

/-- Primitive kind of a field type, if it is primitive. -/

def fieldPrim : FieldType → Option PrimType
  | .fPrim p => some p
  | .fVector _ => none
  | .fMap _ _ => none

/-- The named primitive fields of a layout, in declared order. -/

def fieldKinds (t : TypeLayout) : List (List Nat × PrimType) :=
  t.fields.filterMap (fun f =>
    match fieldPrim f.2 with
    | some p => some (f.1, p)
    | none => none)

/-- Structural invariants of a flat record instance: the values line up
with the declared primitive field kinds, in order, and each value lies in
its kind's representable domain. -/

def StructuralInvariant (r : RecordInstance) : Prop :=
  r.values.map (fun v => some v.ptype) = r.layout.fields.map (fun f => fieldPrim f.2)
  ∧ ∀ v ∈ r.values, v.wf

/-- The `validate()` operation: a pure boolean check of the structural
invariants, touching no stream. -/

def RecordInstance.validate (r : RecordInstance) : Bool :=
  (r.values.map (fun v => some v.ptype)
      == r.layout.fields.map (fun f => fieldPrim f.2))
  && r.values.all (fun v => v.wfb)

/-- Binary serialization of the field values in declared order; the
`startRecord`/`endRecord` markers contribute no bytes. -/

def bserFields : List PrimValue → List Nat
  | [] => []
  | v :: vs => bwritePrim v ++ bserFields vs

/-- XML serialization of named field values in declared order. -/

def xserFields : List (List Nat × PrimValue) → List XmlToken
  | [] => []
  | (n, v) :: rest => xwritePrim n v ++ xserFields rest

/-- CSV serialization of the field values: comma-separated, declared
order. -/

def cserFields : List PrimValue → List Nat
  | [] => []
  | [v] => cwritePrim v
  | v :: vs => cwritePrim v ++ 44 :: cserFields vs

/-- Serialize one record through the archive of the given format
(`Modelled from the spec:` `serialize` issues `startRecord(tag)`, one
tagged write per field in declared order, then `endRecord(tag)`; binary
markers are empty, XML wraps the fields in an element named from the tag,
CSV emits one comma-separated line). -/

def serializeRecord : (f : RecFormat) → RecordInstance → List Nat → Wire f
  | .kBinary, r, _ => bserFields r.values
  | .kXML, r, tag =>
    XmlToken.elemOpen tag (.recName r.layout.name) ::
      (xserFields (((fieldKinds r.layout).map Prod.fst).zip r.values) ++
        [XmlToken.elemClose tag])
  | .kCSV, r, _ => cserFields r.values

/-- Binary deserialization of a field kind list, threading the prior
values: a field read before a failure keeps its newly read value, the
remaining fields keep their prior values, and the first error is returned
as is — no rollback. -/

def bdesFields : List PrimType → List PrimValue → List Nat →
    (List PrimValue × Except Err (List Nat))
  | [], prior, w => (prior, .ok w)
  | ty :: tys, prior, w =>
    match breadPrim ty w with
    | .ok (v, rest) =>
      let (vals, res) := bdesFields tys prior.tail rest
      (v :: vals, res)
    | .error e => (prior, .error e)

/-- XML deserialization of a named field kind list, threading prior
values as in the binary case. -/

def xdesFields : List (List Nat × PrimType) → List PrimValue → List XmlToken →
    (List PrimValue × Except Err (List XmlToken))
  | [], prior, w => (prior, .ok w)
  | (n, ty) :: tys, prior, w =>
    match xreadPrim n ty w with
    | .ok (v, rest) =>
      let (vals, res) := xdesFields tys prior.tail rest
      (v :: vals, res)
    | .error e => (prior, .error e)

/-- CSV deserialization of a field kind list: the first field is read
directly, every further field must be preceded by a comma. -/

def cdesFields : Bool → List PrimType → List PrimValue → List Nat →
    (List PrimValue × Except Err (List Nat))
  | _, [], prior, w => (prior, .ok w)
  | true, ty :: tys, prior, w =>
    match creadPrim ty w with
    | .ok (v, rest) =>
      let (vals, res) := cdesFields false tys prior.tail rest
      (v :: vals, res)
    | .error e => (prior, .error e)
  | false, ty :: tys, prior, w =>
    match w with
    | 44 :: w2 =>
      match creadPrim ty w2 with
      | .ok (v, rest) =>
        let (vals, res) := cdesFields false tys prior.tail rest
        (v :: vals, res)
      | .error e => (prior, .error e)
    | [] => (prior, .error .ioError)
    | _ => (prior, .error .formatError)

/-- Deserialize one record through the archive of the given format into
the target instance, returning the (possibly partially) updated instance
and the remaining wire or the first error. -/

def deserializeRecord : (f : RecFormat) → RecordInstance → List Nat →
    Wire f → RecordInstance × Except Err (Wire f)
  | .kBinary, r, _, w =>
    let (vals, res) := bdesFields ((fieldKinds r.layout).map Prod.snd) r.values w
    (⟨r.layout, vals⟩, res)
  | .kXML, r, tag, w =>
    match w with
    | XmlToken.elemOpen t ind :: w2 =>
      if t = tag ∧ ind = .recName r.layout.name then
        let (vals, res) := xdesFields (fieldKinds r.layout) r.values w2
        match res with
        | .ok w3 =>
          match w3 with
          | XmlToken.elemClose t2 :: w4 =>
            if t2 = tag then (⟨r.layout, vals⟩, .ok w4)
            else (⟨r.layout, vals⟩, .error .formatError)
          | [] => (⟨r.layout, vals⟩, .error .ioError)
          | _ => (⟨r.layout, vals⟩, .error .formatError)
        | .error e => (⟨r.layout, vals⟩, .error e)
      else (r, .error .formatError)
    | [] => (r, .error .ioError)
    | _ => (r, .error .formatError)
  | .kCSV, r, _, w =>
    let (vals, res) := cdesFields true ((fieldKinds r.layout).map Prod.snd) r.values w
    (⟨r.layout, vals⟩, res)

/-- Facade-level events: one entry per `serialize`/`deserialize` call the
facade issues on a record, carrying the tag it passes (the record's own
type name). -/

inductive FacadeEvent
  | deserializeCall (tag : List Nat)
  | serializeCall (tag : List Nat)
deriving DecidableEq, Repr

/-- The RecordReader facade: a format chosen at construction and the
remaining input wire of that format. -/

structure RecordReaderM where
  fmt : RecFormat
  ins : Wire fmt

/-- Result of one facade read. -/

structure ReadResult where
  inst : RecordInstance
  res : Except Err Unit
  reader : RecordReaderM
  log : List FacadeEvent

/-- One facade read: exactly one `record.deserialize(archive,
record.type())`, no batching (`Modelled from the spec:` the facade body of
`RecordReader::read` is absent from the sources). -/

def RecordReaderM.read (rd : RecordReaderM) (r : RecordInstance) : ReadResult :=
  match deserializeRecord rd.fmt r r.typeName rd.ins with
  | (r2, .ok w2) => ⟨r2, .ok (), ⟨rd.fmt, w2⟩, [.deserializeCall r.typeName]⟩
  | (r2, .error e) => ⟨r2, .error e, rd, [.deserializeCall r.typeName]⟩

/-- The RecordWriter facade: a format chosen at construction and the
output wire written so far. -/

structure RecordWriterM where
  fmt : RecFormat
  outs : Wire fmt

/-- Appending on the wire of a format. -/

def wireAppend : (f : RecFormat) → Wire f → Wire f → Wire f
  | .kBinary, a, b => List.append a b
  | .kXML, a, b => List.append a b
  | .kCSV, a, b => List.append a b

/-- Result of one facade write. -/

structure WriteResult where
  inst : RecordInstance
  writer : RecordWriterM
  log : List FacadeEvent

/-- One facade write: exactly one `record.serialize(archive,
record.type())`; the record is returned unchanged, mirroring the `const`
qualifier on `Record::serialize` (recordio.hh line 47). -/

def RecordWriterM.write (wr : RecordWriterM) (r : RecordInstance) : WriteResult :=
  ⟨r, ⟨wr.fmt, wireAppend wr.fmt wr.outs (serializeRecord wr.fmt r r.typeName)⟩,
    [.serializeCall r.typeName]⟩

/-- The archive's own fixed-count byte read agrees with the short-read-is-
`ioError` discipline over the stream contract. -/

def bStartRecord (_tag : List Nat) : List Nat := []

/-- Binary wire bytes of the `endRecord` marker: none. -/

def bEndRecord (_tag : List Nat) : List Nat := []

/-- Binary wire bytes of the `startVector` marker: none. -/

def bStartVector (_tag : List Nat) (_size : Nat) : List Nat := []

/-- Binary wire bytes of the `endVector` marker: none. -/

def bEndVector (_tag : List Nat) : List Nat := []

/-- Binary wire bytes of the `startMap` marker: none. -/

def bStartMap (_tag : List Nat) (_size : Nat) : List Nat := []

/-- Binary wire bytes of the `endMap` marker: none. -/

def bEndMap (_tag : List Nat) : List Nat := []

/-- The members of the `Record` capability interface (recordio.hh lines
44-51): `validate`, `serialize`, `deserialize`, and the identity accessors
`type` and `signature`. -/

inductive RecordOp
  | opValidate
  | opSerialize
  | opDeserialize
  | opType
  | opSignature
deriving DecidableEq, Repr

theorem unzigzag_zigzag (i : Int) : unzigzag (zigzag i) = i := by
  rcases le_or_lt 0 i with h | h
  · have hz : zigzag i = 2 * i.natAbs := by simp [zigzag, h]
    have hc : 2 * i.natAbs % 2 = 0 := by omega
    rw [hz, unzigzag, if_pos hc]
    omega
  · have h1 : 1 ≤ i.natAbs := by omega
    have hz : zigzag i = 2 * i.natAbs - 1 := by
      simp [zigzag, not_le.mpr h]
    have hc : ¬ ((2 * i.natAbs - 1) % 2 = 0) := by omega
    rw [hz, unzigzag, if_neg hc]
    omega

/-- Fuel-indexed worker for the varint encoding; fuel `n` always suffices
for value `n`. -/

theorem varintF_congr : ∀ (f1 : Nat) (f2 n : Nat), n ≤ f1 → n ≤ f2 →
    varintF f1 n = varintF f2 n := by
  intro f1
  induction f1 with
  | zero =>
    intro f2 n h1 h2
    have : n = 0 := by omega
    subst this
    cases f2 <;> simp [varintF]
  | succ f1 ih =>
    intro f2 n h1 h2
    cases f2 with
    | zero =>
      have : n = 0 := by omega
      subst this
      simp [varintF]
    | succ f2 =>
      by_cases hn : n < 128
      · simp [varintF, hn]
      · simp only [varintF, if_neg hn]
        have hd : n / 128 < n := Nat.div_lt_self (by omega) (by norm_num)
        rw [ih f2 (n / 128) (by omega) (by omega)]

/-- The defining recursion of the varint encoding. -/

theorem varint_eq (n : Nat) :
    varint n = if n < 128 then [n] else (n % 128 + 128) :: varint (n / 128) := by
  unfold varint
  by_cases hn : n < 128
  · rw [if_pos hn]
    cases n with
    | zero => simp [varintF]
    | succ m =>
      simp [varintF, hn]
  · rw [if_neg hn]
    have h1 : 1 ≤ n := by omega
    obtain ⟨m, rfl⟩ : ∃ m, n = m + 1 := ⟨n - 1, by omega⟩
    simp only [varintF, if_neg hn]
    have hd : (m + 1) / 128 < m + 1 := Nat.div_lt_self (by omega) (by norm_num)
    rw [varintF_congr m ((m + 1) / 128) ((m + 1) / 128) (by omega) (by omega)]

/-- Decode a varint from the front of a byte list.  An empty list mid-value
is stream exhaustion, hence `ioError`. -/

theorem varintDec_varint (n : Nat) (rest : List Nat) :
    varintDec (varint n ++ rest) = .ok (n, rest) := by
  induction n using Nat.strong_induction_on with
  | _ n ih =>
    rw [varint_eq]
    split
    · simp [varintDec, *]
    · rename_i h
      have hlt : n / 128 < n := Nat.div_lt_self (by omega) (by norm_num)
      have hrec := ih (n / 128) hlt
      have hb : ¬ (n % 128 + 128 < 128) := by omega
      simp only [List.cons_append, varintDec, if_neg hb]
      have hrec2 : varintDec ((varint (n / 128)).append rest) =
          Except.ok (n / 128, rest) := hrec
      rw [hrec2]
      simp only [Except.ok.injEq, Prod.mk.injEq, and_true]
      omega

theorem varint_length_one {n : Nat} (h : n < 128) : (varint n).length = 1 := by
  rw [varint_eq]
  simp [h]

theorem varint_length_pos (n : Nat) : 1 ≤ (varint n).length := by
  rw [varint_eq]
  split <;> simp

/-- Number of bytes of the varint encoding is monotone in the value. -/

theorem varint_length_mono {a b : Nat} (h : a ≤ b) :
    (varint a).length ≤ (varint b).length := by
  induction b using Nat.strong_induction_on generalizing a with
  | _ b ih =>
    rcases Nat.lt_or_ge b 128 with hb | hb
    · have ha : a < 128 := by omega
      rw [varint_length_one ha, varint_length_one hb]
    · rcases Nat.lt_or_ge a 128 with ha | ha
      · rw [varint_length_one ha]
        exact varint_length_pos b
      · have ea : varint a = (a % 128 + 128) :: varint (a / 128) := by
          rw [varint_eq]; exact if_neg (by omega)
        have eb : varint b = (b % 128 + 128) :: varint (b / 128) := by
          rw [varint_eq]; exact if_neg (by omega)
        rw [ea, eb]
        simp only [List.length_cons]
        have hlt : b / 128 < b := Nat.div_lt_self (by omega) (by norm_num)
        have hdiv : a / 128 ≤ b / 128 := Nat.div_le_div_right h
        exact Nat.succ_le_succ (ih (b / 128) hlt hdiv)

/-- The eight tagged primitive kinds the Archive protocol exposes:
boolean, 8/32/64-bit integer, 32/64-bit float, UTF-8 string, byte buffer. -/

theorem byteDec_byteEnc {i : Int} (h1 : -128 ≤ i) (h2 : i < 128) :
    byteDec (byteEnc i) = i := by
  unfold byteEnc byteDec
  split <;> omega

/-- Little-endian fixed-width byte rendering of a natural number. -/

theorem readLE_bytesLE (k : Nat) (n : Nat) (rest : List Nat)
    (h : n < 2 ^ (8 * k)) : readLE k (bytesLE k n ++ rest) = .ok (n, rest) := by
  induction k generalizing n with
  | zero =>
    have : n = 0 := by simpa using h
    simp [this, bytesLE, readLE]
  | succ k ih =>
    have hp : 2 ^ (8 * (k + 1)) = 2 ^ (8 * k) * 256 := by
      rw [show 8 * (k + 1) = 8 * k + 8 from by ring, pow_add]
      norm_num
    have hdiv : n / 256 < 2 ^ (8 * k) := by
      rw [hp] at h
      omega
    have hrec := ih (n / 256) hdiv
    simp only [bytesLE, List.cons_append, readLE]
    have hrec2 : readLE k ((bytesLE k (n / 256)).append rest) =
        Except.ok (n / 256, rest) := hrec
    rw [hrec2]
    simp only [Except.ok.injEq, Prod.mk.injEq, and_true]
    omega

/-- Read exactly `k` raw bytes off the front of the stream. -/

theorem takeN_append (s rest : List Nat) :
    takeN s.length (s ++ rest) = .ok (s, rest) := by
  induction s with
  | nil => simp [takeN]
  | cons b bs ih => simp [takeN, ih]

/-- Binary encoding of a 32/64-bit integer: zigzag then varint, as the
specification describes the binary variant. -/

theorem breadPrim_bwritePrim (v : PrimValue) (h : v.wf) (rest : List Nat) :
    breadPrim v.ptype (bwritePrim v ++ rest) = .ok (v, rest) := by
  cases v with
  | vBool b =>
    cases b <;> simp [bwritePrim, PrimValue.ptype, breadPrim]
  | vByte i =>
    simp only [PrimValue.wf, PrimValue.wfb, decide_eq_true_eq] at h
    simp [bwritePrim, PrimValue.ptype, breadPrim, byteDec_byteEnc h.1 h.2]
  | vInt i =>
    simp [bwritePrim, encLong, PrimValue.ptype, breadPrim, varintDec_varint,
      unzigzag_zigzag]
  | vLong i =>
    simp [bwritePrim, encLong, PrimValue.ptype, breadPrim, varintDec_varint,
      unzigzag_zigzag]
  | vFloat bits =>
    simp only [PrimValue.wf, PrimValue.wfb, decide_eq_true_eq] at h
    have : bits < 2 ^ (8 * 4) := by norm_num at h ⊢; omega
    simp [bwritePrim, PrimValue.ptype, breadPrim, readLE_bytesLE 4 bits rest this]
  | vDouble bits =>
    simp only [PrimValue.wf, PrimValue.wfb, decide_eq_true_eq] at h
    have : bits < 2 ^ (8 * 8) := by norm_num at h ⊢; omega
    simp [bwritePrim, PrimValue.ptype, breadPrim, readLE_bytesLE 8 bits rest this]
  | vString s =>
    simp [bwritePrim, PrimValue.ptype, breadPrim, List.append_assoc,
      varintDec_varint, takeN_append]
  | vBuffer s =>
    simp [bwritePrim, PrimValue.ptype, breadPrim, List.append_assoc,
      varintDec_varint, takeN_append]

/-- ASCII decimal digits of a natural number, least significant digit
first. -/

theorem decValRev_natDecRev (n : Nat) : decValRev (natDecRev n) = n := by
  induction n using Nat.strong_induction_on with
  | _ n ih =>
    unfold natDecRev
    split
    · simp [decValRev]
    · rename_i h
      have hlt : n / 10 < n := Nat.div_lt_self (by omega) (by norm_num)
      simp only [decValRev, ih (n / 10) hlt]
      omega

theorem natDecRev_digits (n : Nat) :
    ∀ b ∈ natDecRev n, isDigit b = true := by
  induction n using Nat.strong_induction_on with
  | _ n ih =>
    unfold natDecRev
    split
    · rename_i h
      intro b hb
      simp only [List.mem_singleton] at hb
      subst hb
      simp only [isDigit, Bool.and_eq_true, decide_eq_true_eq]
      omega
    · rename_i h
      have hlt : n / 10 < n := Nat.div_lt_self (by omega) (by norm_num)
      intro b hb
      rcases List.mem_cons.mp hb with hb | hb
      · subst hb
        simp only [isDigit, Bool.and_eq_true, decide_eq_true_eq]
        omega
      · exact ih (n / 10) hlt b hb

theorem natDecRev_ne_nil (n : Nat) : natDecRev n ≠ [] := by
  unfold natDecRev
  split <;> simp

/-- Parse a whole ASCII decimal text into a natural number: the text must
be nonempty and all digits, else the input is malformed. -/

theorem parseNatText_natDec (n : Nat) : parseNatText (natDec n) = .ok n := by
  have h2 : (natDec n).all isDigit = true := by
    rw [List.all_eq_true]
    intro b hb
    exact natDecRev_digits n b (List.mem_reverse.mp hb)
  have hne : natDec n ≠ [] := by
    simp only [natDec, ne_eq, List.reverse_eq_nil_iff]
    exact natDecRev_ne_nil n
  obtain ⟨b, r, hbr⟩ := List.exists_cons_of_ne_nil hne
  rw [hbr] at h2 ⊢
  rw [parseNatText, if_pos h2, ← hbr]
  simp [natDec, List.reverse_reverse, decValRev_natDecRev]

/-- ASCII decimal text of an integer: a leading minus sign (byte 45) for
negative values. -/

theorem parseIntText_intDec (i : Int) : parseIntText (intDec i) = .ok i := by
  rcases lt_or_le i 0 with h | h
  · rw [intDec, if_pos h]
    simp only [parseIntText, if_pos rfl, parseNatText_natDec]
    have habs : -((i.natAbs : Nat) : Int) = i := by omega
    rw [habs]
    simp
  · rw [intDec, if_neg (not_lt.mpr h)]
    have hne : natDec i.natAbs ≠ [] := by
      simp only [natDec, ne_eq, List.reverse_eq_nil_iff]
      exact natDecRev_ne_nil i.natAbs
    obtain ⟨b, r, hbr⟩ := List.exists_cons_of_ne_nil hne
    have hb : isDigit b = true := by
      have hmem : b ∈ natDec i.natAbs := by
        rw [hbr]; exact List.mem_cons_self b r
      exact natDecRev_digits i.natAbs b (List.mem_reverse.mp hmem)
    have hb45 : ¬ (b = 45) := by
      simp only [isDigit, Bool.and_eq_true, decide_eq_true_eq] at hb
      omega
    rw [hbr, parseIntText, if_neg hb45, ← hbr, parseNatText_natDec]
    have habs : ((i.natAbs : Nat) : Int) = i := by omega
    simp [habs]

/-- Lower-case ASCII hex digit of a value below 16. -/

theorem hexVal_hexDigit {d : Nat} (h : d < 16) : hexVal (hexDigit d) = .ok d := by
  rcases Nat.lt_or_ge d 10 with hd | hd
  · have he : hexDigit d = d + 48 := if_pos hd
    rw [hexVal, he, if_pos (by omega)]
    simp only [Except.ok.injEq]
    omega
  · have he : hexDigit d = d + 87 := if_neg (by omega)
    rw [hexVal, he, if_neg (by omega), if_pos (by omega)]
    simp only [Except.ok.injEq]
    omega

/-- Hex text of a byte buffer: two lower-case hex digits per byte. -/

theorem parseHexText_bufHexEnc (bs : List Nat)
    (h : ∀ b ∈ bs, b < 256) : parseHexText (bufHexEnc bs) = .ok bs := by
  induction bs with
  | nil => simp [bufHexEnc, parseHexText]
  | cons b bs ih =>
    have hb : b < 256 := h b (List.mem_cons_self b bs)
    have hrest : ∀ x ∈ bs, x < 256 := fun x hx => h x (List.mem_cons_of_mem b hx)
    have hhi : b / 16 < 16 := by omega
    have hlo : b % 16 < 16 := by omega
    simp only [bufHexEnc, parseHexText, hexVal_hexDigit hhi, hexVal_hexDigit hlo]
    rw [ih hrest]
    simp only [Except.ok.injEq, List.cons.injEq, and_true]
    omega

/-- ASCII bytes of the word true. -/

theorem parseText_valueText (v : PrimValue) (h : v.wf) :
    parseText v.ptype (valueText v) = .ok v := by
  cases v with
  | vBool b =>
    cases b <;> simp [valueText, PrimValue.ptype, parseText, parseBoolText,
      boolText, trueText, falseText]
  | vByte i =>
    simp [valueText, PrimValue.ptype, parseText, parseIntText_intDec]
  | vInt i =>
    simp [valueText, PrimValue.ptype, parseText, parseIntText_intDec]
  | vLong i =>
    simp [valueText, PrimValue.ptype, parseText, parseIntText_intDec]
  | vFloat bits =>
    simp [valueText, PrimValue.ptype, parseText, parseNatText_natDec]
  | vDouble bits =>
    simp [valueText, PrimValue.ptype, parseText, parseNatText_natDec]
  | vString s =>
    simp [valueText, PrimValue.ptype, parseText]
  | vBuffer bs =>
    simp only [PrimValue.wf, PrimValue.wfb, List.all_eq_true,
      decide_eq_true_eq] at h
    simp [valueText, PrimValue.ptype, parseText, parseHexText_bufHexEnc bs h]

/-- Type indicator carried by an XML element: a scalar kind, a record type
name, or a vector/map wrapper. -/

theorem xreadPrim_xwritePrim (tag : List Nat) (v : PrimValue) (h : v.wf)
    (rest : List XmlToken) :
    xreadPrim tag v.ptype (xwritePrim tag v ++ rest) = .ok (v, rest) := by
  simp only [xwritePrim, List.cons_append, List.nil_append, xreadPrim]
  rw [if_pos ⟨trivial, trivial, trivial⟩, parseText_valueText v h]

/-- A CSV string field is quoted exactly when it contains a comma, double
quote, or newline byte. -/

theorem csvQuoted_csvEscape (s : List Nat) :
    csvQuoted (csvEscape s ++ [34]) = .ok (s, []) := by
  induction s with
  | nil => simp [csvEscape, csvQuoted]
  | cons c cs ih =>
    rcases eq_or_ne c 34 with hc | hc
    · subst hc
      simp only [csvEscape, if_pos rfl, List.cons_append, csvQuoted, if_true,
        List.append_eq]
      rw [ih]
    · simp only [csvEscape, if_neg hc, List.cons_append]
      rw [csvQuoted.eq_def]
      simp only [if_neg hc, List.append_eq]
      rw [ih]

theorem csvUnquoted_of_no_comma (s : List Nat) (h : ∀ c ∈ s, ¬ c = 44) :
    csvUnquoted s = (s, []) := by
  induction s with
  | nil => simp [csvUnquoted]
  | cons c cs ih =>
    have hc : ¬ c = 44 := h c (List.mem_cons_self c cs)
    have hrest : ∀ x ∈ cs, ¬ x = 44 := fun x hx => h x (List.mem_cons_of_mem c hx)
    simp [csvUnquoted, if_neg hc, ih hrest]

theorem csvTakeField_safe (s : List Nat) (h : ∀ c ∈ s, ¬ c = 34 ∧ ¬ c = 44) :
    csvTakeField s = .ok (s, []) := by
  cases s with
  | nil => simp [csvTakeField]
  | cons c cs =>
    have hc := h c (List.mem_cons_self c cs)
    rw [csvTakeField, if_neg hc.1,
      csvUnquoted_of_no_comma (c :: cs) (fun x hx => (h x hx).2)]

theorem natDec_mem_digit {n c : Nat} (hc : c ∈ natDec n) : 48 ≤ c ∧ c ≤ 57 := by
  have hd := natDecRev_digits n c (List.mem_reverse.mp hc)
  simpa [isDigit] using hd

theorem intDec_mem {i : Int} {c : Nat} (hc : c ∈ intDec i) :
    c = 45 ∨ (48 ≤ c ∧ c ≤ 57) := by
  unfold intDec at hc
  split at hc
  · rcases List.mem_cons.mp hc with h | h
    · exact Or.inl h
    · exact Or.inr (natDec_mem_digit h)
  · exact Or.inr (natDec_mem_digit hc)

theorem hexDigit_bound {d : Nat} (h : d < 16) :
    (48 ≤ hexDigit d ∧ hexDigit d ≤ 57) ∨
      (97 ≤ hexDigit d ∧ hexDigit d ≤ 102) := by
  unfold hexDigit
  split
  · left; omega
  · right; omega

theorem bufHexEnc_mem {bs : List Nat} {c : Nat} (hb : ∀ b ∈ bs, b < 256)
    (hc : c ∈ bufHexEnc bs) :
    (48 ≤ c ∧ c ≤ 57) ∨ (97 ≤ c ∧ c ≤ 102) := by
  induction bs with
  | nil => simp [bufHexEnc] at hc
  | cons b bs ih =>
    have hb0 : b < 256 := hb b (List.mem_cons_self b bs)
    have hbrest : ∀ x ∈ bs, x < 256 := fun x hx => hb x (List.mem_cons_of_mem b hx)
    simp only [bufHexEnc, List.mem_cons] at hc
    rcases hc with rfl | hc
    · exact hexDigit_bound (by omega)
    · rcases hc with rfl | hc
      · exact hexDigit_bound (by omega)
      · exact ih hbrest hc

/-- The CSV text of every non-string primitive value uses only bytes that
are neither a double quote nor a comma, so it never needs quoting. -/

theorem valueText_safe (v : PrimValue) (h : v.wf)
    (hns : ∀ s, v ≠ .vString s) :
    ∀ c ∈ valueText v, ¬ c = 34 ∧ ¬ c = 44 := by
  intro c hc
  cases v with
  | vBool b =>
    cases b with
    | false =>
      simp [valueText, boolText, falseText] at hc
      rcases hc with rfl | rfl | rfl | rfl | rfl <;> exact ⟨by omega, by omega⟩
    | true =>
      simp [valueText, boolText, trueText] at hc
      rcases hc with rfl | rfl | rfl | rfl <;> exact ⟨by omega, by omega⟩
  | vByte i =>
    rcases intDec_mem (by simpa [valueText] using hc) with h45 | hd <;> omega
  | vInt i =>
    rcases intDec_mem (by simpa [valueText] using hc) with h45 | hd <;> omega
  | vLong i =>
    rcases intDec_mem (by simpa [valueText] using hc) with h45 | hd <;> omega
  | vFloat bits =>
    have := natDec_mem_digit (by simpa [valueText] using hc)
    omega
  | vDouble bits =>
    have := natDec_mem_digit (by simpa [valueText] using hc)
    omega
  | vString s => exact absurd rfl (hns s)
  | vBuffer bs =>
    simp only [PrimValue.wf, PrimValue.wfb, List.all_eq_true,
      decide_eq_true_eq] at h
    rcases bufHexEnc_mem h (by simpa [valueText] using hc) with hd | hx <;> omega

/-- Reading back an unquoted CSV field of safe characters. -/

theorem creadPrim_unquoted (v : PrimValue) (h : v.wf)
    (hsafe : ∀ c ∈ valueText v, ¬ c = 34 ∧ ¬ c = 44) :
    creadPrim v.ptype (valueText v) = .ok (v, []) := by
  unfold creadPrim
  rw [csvTakeField_safe _ hsafe]
  simp [parseText_valueText v h]

/-- CSV round trip for one field. -/

theorem creadPrim_cwritePrim (v : PrimValue) (h : v.wf) :
    creadPrim v.ptype (cwritePrim v) = .ok (v, []) := by
  cases v with
  | vString s =>
    by_cases hq : csvNeedsQuote s = true
    · simp only [cwritePrim, if_pos hq, creadPrim, csvTakeField, if_true]
      rw [csvQuoted_csvEscape s]
      simp [parseText, PrimValue.ptype]
    · have hq' : csvNeedsQuote s = false := by simpa using hq
      have hsafe : ∀ c ∈ s, ¬ c = 34 ∧ ¬ c = 44 := by
        intro c hc
        have hx : ¬ (((c = 44 : Bool) || (c = 34 : Bool) || (c = 10 : Bool)) = true) := by
          intro hcontra
          have hq2 : csvNeedsQuote s = true := by
            simp only [csvNeedsQuote, List.any_eq_true]
            exact ⟨c, hc, hcontra⟩
          rw [hq2] at hq'
          cases hq'
        simp only [Bool.or_eq_true, decide_eq_true_eq] at hx
        push_neg at hx
        exact ⟨hx.1.2, hx.1.1⟩
      simp only [cwritePrim, if_neg hq, creadPrim]
      rw [csvTakeField_safe s hsafe]
      simp [parseText, PrimValue.ptype]
  | vBool b =>
    exact creadPrim_unquoted _ h (valueText_safe _ h (by intro s hs; cases hs))
  | vByte i =>
    exact creadPrim_unquoted _ h (valueText_safe _ h (by intro s hs; cases hs))
  | vInt i =>
    exact creadPrim_unquoted _ h (valueText_safe _ h (by intro s hs; cases hs))
  | vLong i =>
    exact creadPrim_unquoted _ h (valueText_safe _ h (by intro s hs; cases hs))
  | vFloat bits =>
    exact creadPrim_unquoted _ h (valueText_safe _ h (by intro s hs; cases hs))
  | vDouble bits =>
    exact creadPrim_unquoted _ h (valueText_safe _ h (by intro s hs; cases hs))
  | vBuffer bs =>
    exact creadPrim_unquoted _ h (valueText_safe _ h (by intro s hs; cases hs))

/-- Wire type of each archive variant: byte lists for binary and CSV,
token lists for the token-level XML model. -/

theorem primCode_lt (p : PrimType) : primCode p < 8 := by
  cases p <;> simp [primCode]

theorem primCode_inj {p q : PrimType} (h : primCode p = primCode q) : p = q := by
  cases p <;> cases q <;> first | rfl | simp [primCode] at h

/-- Length-prefixed digest of a name. -/

theorem varint_append_inj {a b : Nat} {r1 r2 : List Nat}
    (h : varint a ++ r1 = varint b ++ r2) : a = b ∧ r1 = r2 := by
  have h1 := varintDec_varint a r1
  rw [h] at h1
  have h2 := varintDec_varint b r2
  rw [h1] at h2
  simpa using h2

theorem encName_append_inj {n1 n2 r1 r2 : List Nat}
    (h : encName n1 ++ r1 = encName n2 ++ r2) : n1 = n2 ∧ r1 = r2 := by
  unfold encName at h
  rw [List.append_assoc, List.append_assoc] at h
  obtain ⟨hlen, hrest⟩ := varint_append_inj h
  exact List.append_inj hrest hlen

theorem encFieldType_append_inj (t1 : FieldType) :
    ∀ (t2 : FieldType) (r1 r2 : List Nat),
      encFieldType t1 ++ r1 = encFieldType t2 ++ r2 → t1 = t2 ∧ r1 = r2 := by
  induction t1 with
  | fPrim p =>
    intro t2 r1 r2 h
    cases t2 with
    | fPrim q =>
      simp only [encFieldType, List.cons_append, List.nil_append,
        List.cons.injEq] at h
      exact ⟨by rw [primCode_inj h.1], h.2⟩
    | fVector e =>
      simp only [encFieldType, List.cons_append, List.nil_append,
        List.cons.injEq] at h
      exact absurd h.1 (by have := primCode_lt p; omega)
    | fMap k v =>
      simp only [encFieldType, List.cons_append, List.nil_append,
        List.cons.injEq] at h
      exact absurd h.1 (by have := primCode_lt p; omega)
  | fVector e ih =>
    intro t2 r1 r2 h
    cases t2 with
    | fPrim q =>
      simp only [encFieldType, List.cons_append, List.nil_append,
        List.cons.injEq] at h
      exact absurd h.1 (by have := primCode_lt q; omega)
    | fVector e2 =>
      simp only [encFieldType, List.cons_append, List.cons.injEq] at h
      obtain ⟨he, hr⟩ := ih e2 r1 r2 h.2
      exact ⟨by rw [he], hr⟩
    | fMap k v =>
      simp only [encFieldType, List.cons_append, List.cons.injEq] at h
      omega
  | fMap k v ihk ihv =>
    intro t2 r1 r2 h
    cases t2 with
    | fPrim q =>
      simp only [encFieldType, List.cons_append, List.nil_append,
        List.cons.injEq] at h
      exact absurd h.1 (by have := primCode_lt q; omega)
    | fVector e2 =>
      simp only [encFieldType, List.cons_append, List.cons.injEq] at h
      omega
    | fMap k2 v2 =>
      simp only [encFieldType, List.cons_append, List.cons.injEq,
        List.append_assoc] at h
      obtain ⟨hk, h2⟩ := ihk k2 (encFieldType v ++ r1) (encFieldType v2 ++ r2) h.2
      obtain ⟨hv, hr⟩ := ihv v2 r1 r2 h2
      exact ⟨by rw [hk, hv], hr⟩

theorem encFields_append_inj (fs1 : List (List Nat × FieldType)) :
    ∀ (fs2 : List (List Nat × FieldType)) (r1 r2 : List Nat),
      fs1.length = fs2.length →
      encFields fs1 ++ r1 = encFields fs2 ++ r2 → fs1 = fs2 ∧ r1 = r2 := by
  induction fs1 with
  | nil =>
    intro fs2 r1 r2 hlen h
    cases fs2 with
    | nil => simpa [encFields] using h
    | cons g gs => simp at hlen
  | cons f fs ih =>
    intro fs2 r1 r2 hlen h
    cases fs2 with
    | nil => simp at hlen
    | cons g gs =>
      simp only [encFields, List.append_assoc] at h
      obtain ⟨hn, h2⟩ := encName_append_inj h
      obtain ⟨ht, h3⟩ := encFieldType_append_inj f.2 g.2 _ _ h2
      have hlen2 : fs.length = gs.length := by simpa using hlen
      obtain ⟨hfs, hr⟩ := ih gs r1 r2 hlen2 h3
      refine ⟨?_, hr⟩
      rw [hfs]
      have : f = g := Prod.ext hn ht
      rw [this]

/-- The canonical digest is injective on layouts: structurally different
types have different signatures. -/

theorem signature_inj {t1 t2 : TypeLayout} (h : signature t1 = signature t2) :
    t1 = t2 := by
  unfold signature at h
  rw [List.append_assoc, List.append_assoc] at h
  obtain ⟨hname, h2⟩ := encName_append_inj h
  obtain ⟨hcount, h3⟩ := varint_append_inj h2
  have h4 : encFields t1.fields ++ [] = encFields t2.fields ++ [] := by
    simpa using h3
  obtain ⟨hfields, _⟩ := encFields_append_inj t1.fields t2.fields [] [] hcount h4
  cases t1
  cases t2
  simp_all

/-- A record instance: its concrete type (layout) and its current field
values.  The model covers flat layouts whose fields are primitive; nested
records, vectors and maps appear in layouts (and signatures) but not in the
primitive facade traversal. -/

theorem tail_drop_eq {α : Type} (l : List α) (n : Nat) :
    l.tail.drop n = l.drop (n + 1) := by
  cases l with
  | nil => simp
  | cons a l => simp [List.drop_succ_cons]

/-- Reading back a freshly written flat field sequence consumes exactly
the written bytes, updates every field, and leaves trailing bytes
untouched. -/

theorem bdesFields_ok (vs : List PrimValue) (hwf : ∀ v ∈ vs, v.wf) :
    ∀ (prior : List PrimValue) (extra : List Nat),
      bdesFields (vs.map PrimValue.ptype) prior (bserFields vs ++ extra)
        = (vs ++ prior.drop vs.length, .ok extra) := by
  induction vs with
  | nil =>
    intro prior extra
    simp [bdesFields, bserFields]
  | cons v vs ih =>
    intro prior extra
    have hv : v.wf := hwf v (List.mem_cons_self v vs)
    have hrest : ∀ x ∈ vs, x.wf := fun x hx => hwf x (List.mem_cons_of_mem v hx)
    simp only [List.map_cons, bserFields, List.append_assoc, List.append_eq,
      bdesFields, breadPrim_bwritePrim v hv, ih hrest, List.length_cons,
      tail_drop_eq, List.cons_append]

theorem fieldKinds_snd_aux (fs : List (List Nat × FieldType)) :
    ∀ (vs : List PrimValue),
      vs.map (fun v => some v.ptype) = fs.map (fun f => fieldPrim f.2) →
      (fs.filterMap (fun f =>
        match fieldPrim f.2 with
        | some p => some (f.1, p)
        | none => none)).map Prod.snd = vs.map PrimValue.ptype := by
  induction fs with
  | nil =>
    intro vs h
    have : vs = [] := by
      cases vs with
      | nil => rfl
      | cons v vs => simp at h
    simp [this]
  | cons f fs ih =>
    intro vs h
    cases vs with
    | nil => simp at h
    | cons v vs =>
      simp only [List.map_cons, List.cons.injEq] at h
      rw [List.filterMap_cons]
      rw [← h.1]
      simp only [List.map_cons]
      rw [ih vs h.2]

/-- Under the structural invariant, the declared primitive kind list of
the layout is the kind list of the values. -/

theorem fieldKinds_snd {L : TypeLayout} {vs : List PrimValue}
    (hk : vs.map (fun v => some v.ptype) = L.fields.map (fun f => fieldPrim f.2)) :
    (fieldKinds L).map Prod.snd = vs.map PrimValue.ptype :=
  fieldKinds_snd_aux L.fields vs hk

/-- One binary facade read of a freshly serialized record consumes exactly
that record's bytes: the trailing wire is untouched, so one call is one
top-level record traversal. -/

theorem deserializeRecord_serializeRecord_binary
    (L : TypeLayout) (vs prior : List PrimValue) (extra : List Nat)
    (tag tag2 : List Nat)
    (hk : vs.map (fun v => some v.ptype) = L.fields.map (fun f => fieldPrim f.2))
    (hwf : ∀ v ∈ vs, v.wf) (hlen : prior.length = vs.length) :
    deserializeRecord .kBinary ⟨L, prior⟩ tag2
        (List.append (serializeRecord .kBinary ⟨L, vs⟩ tag) extra)
      = (⟨L, vs⟩, .ok extra) := by
  show (let p := bdesFields ((fieldKinds L).map Prod.snd) prior
          (List.append (bserFields vs) extra)
        ((⟨L, p.1⟩ : RecordInstance), p.2)) = (⟨L, vs⟩, .ok extra)
  rw [show List.append (bserFields vs) extra = bserFields vs ++ extra from rfl]
  rw [fieldKinds_snd hk, bdesFields_ok vs hwf prior extra]
  have hdrop : prior.drop vs.length = [] := by
    rw [← hlen]
    exact List.drop_length prior
  simp [hdrop]

/-- Binary wire bytes of the `startRecord` marker: none. -/

theorem encLong_length_mono {a b : Int} (h : a.natAbs < b.natAbs) :
    (encLong a).length ≤ (encLong b).length := by
  unfold encLong
  apply varint_length_mono
  unfold zigzag
  split <;> split <;> omega

theorem encLong_small {n : Int} (h0 : 0 ≤ n) (h64 : n < 64) :
    (encLong n).length = 1 := by
  unfold encLong
  apply varint_length_one
  unfold zigzag
  rw [if_pos h0]
  omega

/-- C1: for every primitive kind (boolean, 8/32/64-bit integer, 32/64-bit
float, UTF-8 string, byte buffer), every format in {Binary, XML, CSV}, and
every value in the kind's representable domain, writing the value through
an archive of that format and reading into a fresh slot through an archive
of the same format over the produced wire yields a value equal to the
original. -/

theorem c1_primitive_roundtrip (f : RecFormat) (tag : List Nat)
    (v : PrimValue) (h : v.wf) :
    readPrim f tag v.ptype (writePrim f tag v) = .ok (v, emptyWire f) := by
  cases f with
  | kBinary =>
    have hb := breadPrim_bwritePrim v h []
    simpa [readPrim, writePrim, emptyWire] using hb
  | kXML =>
    have hx := xreadPrim_xwritePrim tag v h []
    simpa [readPrim, writePrim, emptyWire] using hx
  | kCSV =>
    have hc := creadPrim_cwritePrim v h
    simpa [readPrim, writePrim, emptyWire] using hc

/-- Witness for C1 at a concrete input: the 32-bit integer 42 in the
binary format. -/

theorem c1_primitive_roundtrip_witness :
    (PrimValue.vInt 42).wf ∧
      readPrim .kBinary [] (PrimValue.vInt 42).ptype
          (writePrim .kBinary [] (.vInt 42)) =
        .ok (.vInt 42, emptyWire .kBinary) :=
  ⟨by decide, c1_primitive_roundtrip .kBinary [] (.vInt 42) (by decide)⟩

/-- C2: `signature()` depends only on the field name+type layout, never on
field values — two instances with the same layout report identical
signatures and type names in every state — and two structurally different
layouts report different signatures. -/

theorem c2_signature_stability :
    (∀ r1 r2 : RecordInstance, r1.layout = r2.layout →
        r1.sigBytes = r2.sigBytes ∧ r1.typeName = r2.typeName) ∧
    (∀ t1 t2 : TypeLayout, t1 ≠ t2 → signature t1 ≠ signature t2) := by
  constructor
  · intro r1 r2 h
    constructor
    · simp [RecordInstance.sigBytes, h]
    · simp [RecordInstance.typeName, h]
  · intro t1 t2 hne hsig
    exact hne (signature_inj hsig)

/-- Witness for C2: two instances of one concrete type with different
field values share a signature; a structurally different type has a
different signature. -/

theorem c2_signature_stability_witness :
    ((⟨⟨[65], [([105], .fPrim .tInt)]⟩, [.vInt 1]⟩ : RecordInstance).sigBytes =
        (⟨⟨[65], [([105], .fPrim .tInt)]⟩, [.vInt 2]⟩ : RecordInstance).sigBytes) ∧
      signature ⟨[65], [([105], .fPrim .tInt)]⟩ ≠
        signature ⟨[66], [([105], .fPrim .tLong)]⟩ :=
  ⟨(c2_signature_stability.1 ⟨⟨[65], [([105], .fPrim .tInt)]⟩, [.vInt 1]⟩
      ⟨⟨[65], [([105], .fPrim .tInt)]⟩, [.vInt 2]⟩ rfl).1,
    c2_signature_stability.2 ⟨[65], [([105], .fPrim .tInt)]⟩
      ⟨[66], [([105], .fPrim .tLong)]⟩ (by decide)⟩

/-- C3: one facade `read` performs exactly one
`record.deserialize(archive, record.type())` and one facade `write`
performs exactly one `record.serialize(archive, record.type())` — the call
log of either facade operation is a single entry carrying the record's
type name — and there is no batching: a binary facade read of a freshly
serialized record consumes exactly that one record's bytes, leaving any
following bytes unread. -/

theorem c3_facade_single_traversal :
    (∀ (rd : RecordReaderM) (r : RecordInstance),
        (rd.read r).log = [.deserializeCall r.typeName]) ∧
    (∀ (wr : RecordWriterM) (r : RecordInstance),
        (wr.write r).log = [.serializeCall r.typeName]) ∧
    (∀ (L : TypeLayout) (vs prior : List PrimValue) (extra : List Nat)
        (tag tag2 : List Nat),
        vs.map (fun v => some v.ptype) = L.fields.map (fun f => fieldPrim f.2) →
        (∀ v ∈ vs, v.wf) → prior.length = vs.length →
        deserializeRecord .kBinary ⟨L, prior⟩ tag2
            (List.append (serializeRecord .kBinary ⟨L, vs⟩ tag) extra)
          = (⟨L, vs⟩, .ok extra)) := by
  refine ⟨?_, ?_, ?_⟩
  · intro rd r
    cases hd : deserializeRecord rd.fmt r r.typeName rd.ins with
    | mk r2 res => cases res <;> simp [RecordReaderM.read, hd]
  · intro wr r
    rfl
  · intro L vs prior extra tag tag2 hk hwf hlen
    exact deserializeRecord_serializeRecord_binary L vs prior extra tag tag2
      hk hwf hlen

/-- Witness for C3: a one-field record followed by a stray byte; the read
returns the record and leaves the stray byte unread. -/

theorem c3_facade_single_traversal_witness :
    deserializeRecord .kBinary ⟨⟨[65], [([105], .fPrim .tInt)]⟩, [.vInt 0]⟩ []
        (List.append
          (serializeRecord .kBinary
            ⟨⟨[65], [([105], .fPrim .tInt)]⟩, [.vInt 7]⟩ []) [9])
      = (⟨⟨[65], [([105], .fPrim .tInt)]⟩, [.vInt 7]⟩, .ok [9]) :=
  c3_facade_single_traversal.2.2 ⟨[65], [([105], .fPrim .tInt)]⟩
    [.vInt 7] [.vInt 0] [9] [] [] (by decide) (by decide) (by decide)

/-- C4 counterexample: 64 is a non-negative integer below 128, but its
binary encoding — zigzag transform then base-128 varint, as the
specification prescribes — occupies two bytes, not one: zigzag maps 64 to
128, which no longer fits a single seven-payload-bit byte. -/

theorem c4_binary_compactness_cex :
    (0 : Int) ≤ 64 ∧ (64 : Int) < 128 ∧ (encLong 64).length ≠ 1 := by
  refine ⟨by norm_num, by norm_num, by decide⟩

/-- C4 (amended): in the binary format every integer is encoded zigzag
then varint with smaller magnitudes costing no more bytes, every
non-negative integer below 64 (not 128) encodes in exactly one byte,
strings and buffers are varint-length-prefixed raw bytes, and all six
structural markers contribute zero bytes on the wire. -/

theorem c4_binary_encoding_amended :
    (∀ i : Int, encLong i = varint (zigzag i)) ∧
    (∀ a b : Int, a.natAbs < b.natAbs →
        (encLong a).length ≤ (encLong b).length) ∧
    (∀ n : Int, 0 ≤ n → n < 64 → (encLong n).length = 1) ∧
    (∀ s : List Nat, bwritePrim (.vString s) = varint s.length ++ s) ∧
    (∀ bs : List Nat, bwritePrim (.vBuffer bs) = varint bs.length ++ bs) ∧
    (∀ (tag : List Nat) (size : Nat),
        bStartRecord tag = [] ∧ bEndRecord tag = [] ∧
        bStartVector tag size = [] ∧ bEndVector tag = [] ∧
        bStartMap tag size = [] ∧ bEndMap tag = []) := by
  refine ⟨fun i => rfl, ?_, ?_, fun s => rfl, fun bs => rfl, ?_⟩
  · intro a b h
    exact encLong_length_mono h
  · intro n h0 h64
    exact encLong_small h0 h64
  · intro tag size
    exact ⟨rfl, rfl, rfl, rfl, rfl, rfl⟩

/-- Witness for the amended C4: 2 has smaller magnitude than 200 and costs
no more bytes; 63 encodes in exactly one byte. -/

theorem c4_binary_encoding_amended_witness :
    ((2 : Int).natAbs < (200 : Int).natAbs ∧
        (encLong 2).length ≤ (encLong 200).length) ∧
      ((0 : Int) ≤ 63 ∧ (63 : Int) < 64 ∧ (encLong 63).length = 1) :=
  ⟨⟨by decide, c4_binary_encoding_amended.2.1 2 200 (by decide)⟩,
    ⟨by decide, by decide,
      c4_binary_encoding_amended.2.2.1 63 (by decide) (by decide)⟩⟩

/-- C8: `validate()` is a pure boolean observation of the instance — it
consumes no stream and returns true exactly when the instance satisfies
the structural invariants of its type. -/

theorem c8_validate_pure (r : RecordInstance) :
    r.validate = true ↔ StructuralInvariant r := by
  unfold RecordInstance.validate StructuralInvariant
  rw [Bool.and_eq_true, beq_iff_eq, List.all_eq_true]
  constructor
  · intro h
    refine ⟨h.1, fun v hv => ?_⟩
    have := h.2 v hv
    simpa [PrimValue.wf] using this
  · intro h
    refine ⟨h.1, fun v hv => ?_⟩
    simpa [PrimValue.wf] using h.2 v hv

/-- C9: the Record capability interface consists of exactly the five
members `validate`, `serialize`, `deserialize`, `type`, `signature`;
`RecFormat` is the closed three-element enumeration {Binary, XML, CSV};
and the format chosen at construction is unchanged by every facade read
and write. -/

theorem c9_interface_and_format_enum :
    (∀ op : RecordOp, op = .opValidate ∨ op = .opSerialize ∨
        op = .opDeserialize ∨ op = .opType ∨ op = .opSignature) ∧
    (∀ f : RecFormat, f = .kBinary ∨ f = .kXML ∨ f = .kCSV) ∧
    (RecFormat.kBinary ≠ .kXML ∧ RecFormat.kBinary ≠ .kCSV ∧
      RecFormat.kXML ≠ .kCSV) ∧
    (∀ (rd : RecordReaderM) (r : RecordInstance),
        (rd.read r).reader.fmt = rd.fmt) ∧
    (∀ (wr : RecordWriterM) (r : RecordInstance),
        (wr.write r).writer.fmt = wr.fmt) := by
  refine ⟨?_, ?_, by decide, ?_, ?_⟩
  · intro op
    cases op <;> simp
  · intro f
    cases f <;> simp
  · intro rd r
    cases hd : deserializeRecord rd.fmt r r.typeName rd.ins with
    | mk r2 res => cases res <;> simp [RecordReaderM.read, hd]
  · intro wr r
    rfl

/-- C10: serializing a record never mutates it: `Record::serialize` is
declared `const` (recordio.hh line 47), so the record coming out of a
facade `write` is the record that went in, every field unchanged. -/

theorem c10_serialize_const (wr : RecordWriterM) (r : RecordInstance) :
    (wr.write r).inst = r := rfl

end RecordIO
